import Mathlib

/-
Shallow embedding of the structured content renderer of this repository
(file src/app/src/App.tsx): the normalization utility, the color-name
resolution, the heading classification and sectionizer fold inside
TopicBlocks, the Python line tokenizer, and the inline-code splitter of
RichText.  JS strings are modelled as lists of Unicode scalar values
(Lean Char); all inputs appearing in the claims lie in the Basic
Multilingual Plane, where this agrees with UTF-16 code units.
-/

namespace App

/-- The single-quote character, written by code point to keep apostrophes
out of character literals. -/
def squote : Char := Char.ofNat 0x27

/-- The backtick character, written by code point. -/
def backtick : Char := Char.ofNat 0x60

/-- Whitespace as matched by the JS regex class backslash-s and by
String.prototype.trim: WhiteSpace plus LineTerminator code points. -/
def isJsSpace (c : Char) : Bool :=
  decide (c.toNat = 0x9 ∨ c.toNat = 0xA ∨ c.toNat = 0xB ∨ c.toNat = 0xC ∨
    c.toNat = 0xD ∨ c.toNat = 0x20 ∨ c.toNat = 0xA0 ∨ c.toNat = 0x1680 ∨
    (0x2000 ≤ c.toNat ∧ c.toNat ≤ 0x200A) ∨ c.toNat = 0x2028 ∨
    c.toNat = 0x2029 ∨ c.toNat = 0x202F ∨ c.toNat = 0x205F ∨
    c.toNat = 0x3000 ∨ c.toNat = 0xFEFF)

/-- Line terminators, the code points NOT matched by the JS regex dot. -/
def isLineTerminator (c : Char) : Bool :=
  decide (c.toNat = 0xA ∨ c.toNat = 0xD ∨ c.toNat = 0x2028 ∨ c.toNat = 0x2029)

/-- Word characters of the JS regex class backslash-w: ASCII letters,
digits and underscore. -/
def isWordChar (c : Char) : Bool :=
  decide (('A' ≤ c ∧ c ≤ 'Z') ∨ ('a' ≤ c ∧ c ≤ 'z') ∨ ('0' ≤ c ∧ c ≤ '9') ∨ c = '_')

/-- First character of the identifier alternative of the tokenizer regex:
an ASCII letter or underscore. -/
def isIdentStart (c : Char) : Bool :=
  decide (('A' ≤ c ∧ c ≤ 'Z') ∨ ('a' ≤ c ∧ c ≤ 'z') ∨ c = '_')

/-- ASCII digit test, as in the source comparisons ch < "0" or ch > "9"
and the regex class backslash-d. -/
def isDigitChar (c : Char) : Bool :=
  decide ('0' ≤ c ∧ c ≤ '9')

/-- Unicode simple lowercase mapping of String.prototype.toLowerCase,
restricted to the ASCII and Latin-1 ranges that cover the Spanish content
of this repository; identity on other characters. -/
def jsToLower (c : Char) : Char :=
  if 'A' ≤ c ∧ c ≤ 'Z' then Char.ofNat (c.toNat + 32)
  else if 0xC0 ≤ c.toNat ∧ c.toNat ≤ 0xDE ∧ c.toNat ≠ 0xD7 then Char.ofNat (c.toNat + 32)
  else c

/-- Unicode canonical decomposition (NFD) of one character, restricted to
the precomposed Latin letters of Spanish (acute, diaeresis, tilde);
identity on every other character, in particular on all of ASCII. -/
def nfdChar (c : Char) : List Char :=
  if c.toNat = 0xE1 then ['a', Char.ofNat 0x301]
  else if c.toNat = 0xE9 then ['e', Char.ofNat 0x301]
  else if c.toNat = 0xED then ['i', Char.ofNat 0x301]
  else if c.toNat = 0xF3 then ['o', Char.ofNat 0x301]
  else if c.toNat = 0xFA then ['u', Char.ofNat 0x301]
  else if c.toNat = 0xFC then ['u', Char.ofNat 0x308]
  else if c.toNat = 0xF1 then ['n', Char.ofNat 0x303]
  else if c.toNat = 0xC1 then ['A', Char.ofNat 0x301]
  else if c.toNat = 0xC9 then ['E', Char.ofNat 0x301]
  else if c.toNat = 0xCD then ['I', Char.ofNat 0x301]
  else if c.toNat = 0xD3 then ['O', Char.ofNat 0x301]
  else if c.toNat = 0xDA then ['U', Char.ofNat 0x301]
  else if c.toNat = 0xDC then ['U', Char.ofNat 0x308]
  else if c.toNat = 0xD1 then ['N', Char.ofNat 0x303]
  else [c]

/-- Embedding of function normalize (App.tsx lines 77 to 87): lowercase,
NFD decomposition, then keep every character whose code point is outside
the combining range 0x300 to 0x36F. -/
def normalize (str : String) : String :=
  let lowered := str.data.map jsToLower
  let decomposed := (lowered.map nfdChar).flatten
  String.mk (decomposed.filter fun c => decide (c.toNat < 0x300 ∨ 0x36F < c.toNat))

/-- Embedding of ColorName (App.tsx lines 748 to 758): exact match of the
normalized name against the fixed color enumeration, defaulting to
text-slate-900. -/
def ColorName (name : String) : String :=
  let n := normalize name
  if n = "negro" then "text-slate-900"
  else if n = "naranja" then "text-orange-500"
  else if n = "azul" then "text-blue-500"
  else if n = "morado" then "text-violet-600"
  else if n = "rojo oscuro" then "text-red-800"
  else if n = "rojo claro" then "text-red-500"
  else if n = "verde" then "text-emerald-600"
  else "text-slate-900"

/-- Drop trailing JS whitespace, the right half of String.prototype.trim. -/
def dropTrailingWs (l : List Char) : List Char :=
  (l.reverse.dropWhile isJsSpace).reverse

/-- Embedding of String.prototype.trim on the character list: drop leading
and trailing JS whitespace. -/
def jsTrim (l : List Char) : List Char :=
  dropTrailingWs (l.dropWhile isJsSpace)

/-- String-level wrapper of jsTrim. -/
def trimStr (s : String) : String := String.mk (jsTrim s.data)

/-- Index of the first dot in a character list, modelling
String.prototype.indexOf with needle "." (none plays the role of -1). -/
def idxOfDot : List Char → Option Nat
  | [] => none
  | c :: cs => if c = '.' then some 0 else (idxOfDot cs).map (· + 1)

/-- Embedding of isSubHeading (App.tsx lines 760 to 778): trim, find the
first dot d1 (required at index above 0), find the next dot d2 (required
beyond d1 + 1, here k is the offset of d2 past d1 + 1 shifted so that
k = 0 means d2 = d1 + 1), then require the slice before d1 and the slice
between the dots to be non-empty runs of ASCII digits. -/
def isSubHeading (t : String) : Bool :=
  let s := jsTrim t.data
  match idxOfDot s with
  | none => false
  | some d1 =>
    if d1 = 0 then false
    else
      match idxOfDot (s.drop (d1 + 1)) with
      | none => false
      | some k =>
        if k = 0 then false
        else
          let a := s.take d1
          let b := (s.drop (d1 + 1)).take k
          if a = [] ∨ b = [] then false
          else a.all isDigitChar && b.all isDigitChar

/-- Embedding of isExerciseHeading (App.tsx lines 780 to 785): trim and
lowercase, require the prefix "ejercicio", then trim the remainder and
require its first character to be an ASCII digit. -/
def isExerciseHeading (t : String) : Bool :=
  let s := (jsTrim t.data).map jsToLower
  if "ejercicio".data.isPrefixOf s then
    match jsTrim (s.drop 9) with
    | [] => false
    | c :: _ => isDigitChar c
  else false

/-- The closed content-block variants of the data model (App.tsx lines 10
to 18). -/
inductive TopicBlock
  | h (text : String)
  | p (text : String)
  | ul (items : List String)
  | ol (items : List String)
  | code (text : String)
  | callout (title : Option String) (text : String)
  | table (headers : List String) (rows : List (List String))
  | img (src : String) (alt : String) (caption : Option String)
deriving DecidableEq, Repr

/-- A section of the sectionizer output: a title (empty for the leading
anonymous section) and the blocks belonging to it. -/
structure Sec where
  title : String
  blocks : List TopicBlock
deriving DecidableEq, Repr

/-- The sub-heading test applied by the sections fold to a heading text
(App.tsx lines 793 to 794): trim the text, then ask isSubHeading or
isExerciseHeading. -/
def headingIsSub (text : String) : Bool :=
  isSubHeading (trimStr text) || isExerciseHeading (trimStr text)

/-- Embedding of the sections fold of TopicBlocks (App.tsx lines 787 to
811).  The JS code pushes the current section into the output array when
it is created and mutates it in place; here the state is the list of
finished sections plus the current section, and the output appends the
current section at the end. -/
def sectionsGo : List TopicBlock → List Sec → Option Sec → List Sec
  | [], done, cur => done ++ cur.toList
  | .h text :: bs, done, cur =>
    if headingIsSub text then
      match cur with
      | none => sectionsGo bs done (some ⟨"", [.h text]⟩)
      | some c => sectionsGo bs done (some ⟨c.title, c.blocks ++ [.h text]⟩)
    else sectionsGo bs (done ++ cur.toList) (some ⟨text, []⟩)
  | b :: bs, done, cur =>
    match cur with
    | none => sectionsGo bs done (some ⟨"", [b]⟩)
    | some c => sectionsGo bs done (some ⟨c.title, c.blocks ++ [b]⟩)

/-- The sectionizer: run the fold from the empty state. -/
def sectionsOf (bs : List TopicBlock) : List Sec :=
  sectionsGo bs [] none

/-- A block is a top-level heading when it is a heading whose text the
fold does NOT classify as sub-heading or exercise heading; such blocks
are consumed as section titles. -/
def isTopLevelHeading : TopicBlock → Bool
  | .h text => !headingIsSub text
  | _ => false

/-- The texts of the top-level headings of the input, in order. -/
def topLevelHeadingTexts (bs : List TopicBlock) : List String :=
  bs.filterMap fun b =>
    match b with
    | .h text => if headingIsSub text then none else some text
    | _ => none

/-- Embedding of the comment boundary scan of tokenizePythonLine (App.tsx
lines 660 to 684) fused with the two slices of lines 683 to 684: scan
with the inside-single-quote, inside-double-quote and escape-pending
flags, and return the pair (code part, comment part), the comment part
starting at the first hash found outside both quote states (empty when
there is none). -/
def commentSplit : Bool → Bool → Bool → List Char → List Char × List Char
  | _, _, _, [] => ([], [])
  | inS, inD, esc, c :: cs =>
    if esc then
      let r := commentSplit inS inD false cs
      (c :: r.1, r.2)
    else if c = '\\' then
      let r := commentSplit inS inD true cs
      (c :: r.1, r.2)
    else if inD = false ∧ c = squote then
      let r := commentSplit (!inS) inD false cs
      (c :: r.1, r.2)
    else if inS = false ∧ c = '"' then
      let r := commentSplit inS (!inD) false cs
      (c :: r.1, r.2)
    else if inS = false ∧ inD = false ∧ c = '#' then ([], c :: cs)
    else
      let r := commentSplit inS inD false cs
      (c :: r.1, r.2)

/-- The body of a quoted-string alternative of the retokenization regex,
for quote character q, applied after the opening quote: characters other
than q and backslash, or a backslash followed by any non-line-terminator,
repeated up to and including the closing q.  Returns the matched body
(with the closing quote) and the remainder, or none when no unescaped
closing quote is reachable, in which case the whole alternative fails. -/
def quotedRun (q : Char) : List Char → Option (List Char × List Char)
  | [] => none
  | c :: cs =>
    if c = q then some ([c], cs)
    else if c = '\\' then
      match cs with
      | [] => none
      | d :: cs2 =>
        if isLineTerminator d then none
        else
          match quotedRun q cs2 with
          | none => none
          | some r => some (c :: d :: r.1, r.2)
    else
      match quotedRun q cs with
      | none => none
      | some r => some (c :: r.1, r.2)

/-- Head-of-list word-character test. -/
def headIsWordChar : List Char → Bool
  | [] => false
  | c :: _ => isWordChar c

/-- Head-of-list digit test. -/
def headIsDigit : List Char → Bool
  | [] => false
  | c :: _ => isDigitChar c

/-- Whether the character before the current match position is a word
character (none at the start of the code part). -/
def prevIsWord : Option Char → Bool
  | none => false
  | some c => isWordChar c

/-- One step of the retokenization regex of tokenizePythonLine (App.tsx
lines 686 to 688) at a position whose previous character is prev and
whose remaining input is c followed by cs: try, in the order of the
alternation, a double-quoted string, a single-quoted string, an
identifier with word boundaries on both sides, a numeric literal with
word boundaries, a whitespace run, and finally a single fallback
character.  Word-boundary backtracking of the numeric alternative is
resolved as the regex engine does: a fractional part is kept only when
no word character follows it, the plain digit run is kept only when no
word character follows it, and otherwise the alternative fails and the
single-character fallback fires. -/
def nextLexeme (prev : Option Char) (c : Char) (cs : List Char) : List Char × List Char :=
  if c = '"' then
    match quotedRun '"' cs with
    | some r => (c :: r.1, r.2)
    | none => ([c], cs)
  else if c = squote then
    match quotedRun squote cs with
    | some r => (c :: r.1, r.2)
    | none => ([c], cs)
  else if isIdentStart c then
    if prevIsWord prev then ([c], cs)
    else (c :: cs.takeWhile isWordChar, cs.dropWhile isWordChar)
  else if isDigitChar c then
    if prevIsWord prev then ([c], cs)
    else
      match cs.dropWhile isDigitChar with
      | '.' :: r2 =>
        if headIsDigit r2 then
          if headIsWordChar (r2.dropWhile isDigitChar) then
            (c :: cs.takeWhile isDigitChar, cs.dropWhile isDigitChar)
          else
            (c :: (cs.takeWhile isDigitChar ++ '.' :: r2.takeWhile isDigitChar),
             r2.dropWhile isDigitChar)
        else (c :: cs.takeWhile isDigitChar, cs.dropWhile isDigitChar)
      | rest1 =>
        if headIsWordChar rest1 then ([c], cs)
        else (c :: cs.takeWhile isDigitChar, rest1)
  else if isJsSpace c then (c :: cs.takeWhile isJsSpace, cs.dropWhile isJsSpace)
  else ([c], cs)

/-- The matchAll loop over the code part: repeatedly take the next lexeme,
threading the character before the next position.  The fuel argument
only serves structural recursion; any fuel at least the input length
gives the full lexeme list. -/
def lexLoopF : Nat → Option Char → List Char → List (List Char)
  | 0, _, _ => []
  | _ + 1, _, [] => []
  | fuel + 1, prev, c :: cs =>
    let r := nextLexeme prev c cs
    r.1 :: lexLoopF fuel r.1.getLast? r.2

/-- Token classification tags (spec section 3). -/
inductive TokenKind
  | whitespace
  | stringLit
  | numberLit
  | keyword
  | builtin
  | comment
  | plain
deriving DecidableEq, Repr

/-- A classified token: a run of characters plus its classification. -/
structure Token where
  text : List Char
  kind : TokenKind
deriving DecidableEq, Repr

/-- The fixed keyword vocabulary PY_KEYWORDS (App.tsx lines 607 to 640). -/
def PY_KEYWORDS : List String :=
  ["as", "assert", "break", "class", "continue", "def", "del", "elif",
   "else", "except", "False", "finally", "for", "from", "global", "if",
   "import", "in", "is", "lambda", "None", "nonlocal", "not", "or",
   "pass", "raise", "return", "True", "try", "while", "with", "yield"]

/-- The fixed builtin vocabulary PY_BUILTINS (App.tsx lines 642 to 657). -/
def PY_BUILTINS : List String :=
  ["print", "len", "range", "int", "float", "str", "list", "dict", "set",
   "tuple", "input", "type", "help", "sum"]

/-- Embedding of the lexeme classification of tokenizePythonLine (App.tsx
lines 690 to 719): empty lexemes yield no token (the JS code returns
null); a lexeme that trims to nothing is whitespace; one starting with a
quote is a string literal; one starting with a digit is a numeric
literal; exact members of the keyword and builtin sets follow; anything
else is plain. -/
def classify (t : List Char) : Option Token :=
  if t = [] then none
  else if jsTrim t = [] then some ⟨t, .whitespace⟩
  else if t.head? = some '"' ∨ t.head? = some squote then some ⟨t, .stringLit⟩
  else if headIsDigit t then some ⟨t, .numberLit⟩
  else if String.mk t ∈ PY_KEYWORDS then some ⟨t, .keyword⟩
  else if String.mk t ∈ PY_BUILTINS then some ⟨t, .builtin⟩
  else some ⟨t, .plain⟩

/-- Embedding of tokenizePythonLine (App.tsx lines 659 to 729): split off
the comment part, retokenize the code part, classify each lexeme, and
append one comment token when the comment part is non-empty. -/
def tokenizePythonLine (line : String) : List Token :=
  let parts := commentSplit false false false line.data
  let lexemes := lexLoopF parts.1.length none parts.1
  let toks := lexemes.filterMap classify
  toks ++ (if parts.2 = [] then [] else [⟨parts.2, .comment⟩])

/-- Classification priority exactly as the specification words it: a
whitespace run, else starts with a quote character, else starts with a
digit, else exact keyword, else exact builtin, else plain. -/
def specKind (t : List Char) : TokenKind :=
  if t.all isJsSpace then .whitespace
  else if t.head? = some '"' ∨ t.head? = some squote then .stringLit
  else if headIsDigit t then .numberLit
  else if String.mk t ∈ PY_KEYWORDS then .keyword
  else if String.mk t ∈ PY_BUILTINS then .builtin
  else .plain

/-- The chunks of a string between backticks, modelling a split on the
backtick character (chunk boundaries stand where backticks stood). -/
def tickChunks : List Char → List (List Char)
  | [] => [[]]
  | c :: cs =>
    if c = backtick then [] :: tickChunks cs
    else
      match tickChunks cs with
      | [] => [[c]]
      | h :: t => (c :: h) :: t

/-- The pairing pass of the RichText split (App.tsx line 588, the split on
the regex backtick capture backtick with a non-empty capture): walk the
backtick-separated chunks; a non-empty chunk enclosed by two backticks
becomes a code segment, any backtick that does not open such a pair
stays in the surrounding plain segment. -/
def tickGo : List Char → List (List Char) → List (List Char)
  | plain, [] => [plain]
  | plain, c :: [] => [plain ++ backtick :: c]
  | plain, c :: r :: rest =>
    if c = [] then tickGo (plain ++ [backtick]) (r :: rest)
    else plain :: c :: tickGo r rest

/-- Embedding of the segment list produced by RichText (App.tsx lines 586
to 605): segments at even positions are plain text, segments at odd
positions are inline code. -/
def richTextParts (s : String) : List (List Char) :=
  match tickChunks s.data with
  | [] => [[]]
  | c0 :: rest => tickGo c0 rest

/-- Re-insert backticks around the code segments (odd positions) and
concatenate; the Bool says whether the next segment is code. -/
def reconstructSegs : Bool → List (List Char) → List Char
  | _, [] => []
  | isCode, seg :: rest =>
    (if isCode then backtick :: (seg ++ [backtick]) else seg) ++
      reconstructSegs (!isCode) rest

/-- Rebuild a string from its backtick-separated chunks, used to relate
tickChunks to the original input. -/
def unchunk : List Char → List (List Char) → List Char
  | p, [] => p
  | p, c :: rest => p ++ backtick :: unchunk c rest

/-- Unfolding of topLevelHeadingTexts on a heading block. -/
theorem topLevelHeadingTexts_cons_h (text : String) (bs : List TopicBlock) :
    topLevelHeadingTexts (.h text :: bs) =
      if headingIsSub text then topLevelHeadingTexts bs
      else text :: topLevelHeadingTexts bs := by
  by_cases hsub : headingIsSub text <;>
    simp [topLevelHeadingTexts, List.filterMap_cons, hsub]

/-- The blocks of the sections produced by the fold, flattened, are the
blocks already finished, then the blocks of the current section, then
the non-top-level blocks still to come. -/
theorem sectionsGo_blocks :
    ∀ (bs : List TopicBlock) (done : List Sec) (cur : Option Sec),
    ((sectionsGo bs done cur).map Sec.blocks).flatten =
      (done.map Sec.blocks).flatten ++ cur.elim [] Sec.blocks ++
        bs.filter (fun b => !isTopLevelHeading b) := by
  intro bs
  induction bs with
  | nil =>
    intro done cur
    cases cur <;> simp [sectionsGo, Option.elim]
  | cons b bs ih =>
    intro done cur
    cases b
    case h text =>
      by_cases hsub : headingIsSub text
      · cases cur <;>
          simp [sectionsGo, hsub, ih, List.filter_cons, isTopLevelHeading,
            Option.elim, List.append_assoc]
      · cases cur <;>
          simp [sectionsGo, hsub, ih, List.filter_cons, isTopLevelHeading,
            Option.elim, List.append_assoc]
    all_goals
      cases cur <;>
        simp [sectionsGo, ih, List.filter_cons, isTopLevelHeading,
          Option.elim, List.append_assoc]

/-- C1: partition property of the sectionizer.  Concatenating the block
lists of all produced sections, in order, yields exactly the input
sequence with the top-level headings (the blocks consumed as section
titles) removed: nothing else is dropped, duplicated, reordered or
changed. -/
theorem sectionizer_partition (bs : List TopicBlock) :
    ((sectionsOf bs).map Sec.blocks).flatten =
      bs.filter (fun b => !isTopLevelHeading b) := by
  have h := sectionsGo_blocks bs [] none
  simpa [sectionsOf, Option.elim] using h

/-- Invariant of the fold once a current section exists: the output is
the finished sections, then one section carrying the title of the
current one, then sections titled by upcoming top-level headings. -/
theorem sectionsGo_some_titles :
    ∀ (bs : List TopicBlock) (done : List Sec) (c : Sec),
    ∃ c2 rest, sectionsGo bs done (some c) = done ++ c2 :: rest ∧
      c2.title = c.title ∧
      ∀ s ∈ rest, s.title ∈ topLevelHeadingTexts bs := by
  intro bs
  induction bs with
  | nil =>
    intro done c
    refine ⟨c, [], by simp [sectionsGo], rfl, ?_⟩
    intro s hs
    exact absurd hs (List.not_mem_nil s)
  | cons b bs ih =>
    intro done c
    cases b
    case h text =>
      by_cases hsub : headingIsSub text
      · obtain ⟨c2, rest, he, ht, hm⟩ := ih done ⟨c.title, c.blocks ++ [.h text]⟩
        refine ⟨c2, rest, by simp [sectionsGo, hsub, he], ht, ?_⟩
        intro s hs
        rw [topLevelHeadingTexts_cons_h, if_pos hsub]
        exact hm s hs
      · obtain ⟨c2, rest, he, ht, hm⟩ := ih (done ++ [c]) ⟨text, []⟩
        refine ⟨c, c2 :: rest, ?_, rfl, ?_⟩
        · rw [show sectionsGo (.h text :: bs) done (some c) =
              sectionsGo bs (done ++ [c]) (some ⟨text, []⟩) by
            simp [sectionsGo, hsub]]
          rw [he]
          simp [List.append_assoc]
        · intro s hs
          rw [topLevelHeadingTexts_cons_h, if_neg hsub]
          rcases List.mem_cons.mp hs with h | h
          · subst h
            rw [ht]
            exact List.mem_cons_self _ _
          · exact List.mem_cons_of_mem _ (hm s h)
    case p text =>
      obtain ⟨c2, rest, he, ht, hm⟩ := ih done ⟨c.title, c.blocks ++ [.p text]⟩
      refine ⟨c2, rest, by simp [sectionsGo, he], ht, ?_⟩
      intro s hs
      simpa [topLevelHeadingTexts, List.filterMap_cons] using hm s hs
    case ul items =>
      obtain ⟨c2, rest, he, ht, hm⟩ := ih done ⟨c.title, c.blocks ++ [.ul items]⟩
      refine ⟨c2, rest, by simp [sectionsGo, he], ht, ?_⟩
      intro s hs
      simpa [topLevelHeadingTexts, List.filterMap_cons] using hm s hs
    case ol items =>
      obtain ⟨c2, rest, he, ht, hm⟩ := ih done ⟨c.title, c.blocks ++ [.ol items]⟩
      refine ⟨c2, rest, by simp [sectionsGo, he], ht, ?_⟩
      intro s hs
      simpa [topLevelHeadingTexts, List.filterMap_cons] using hm s hs
    case code text =>
      obtain ⟨c2, rest, he, ht, hm⟩ := ih done ⟨c.title, c.blocks ++ [.code text]⟩
      refine ⟨c2, rest, by simp [sectionsGo, he], ht, ?_⟩
      intro s hs
      simpa [topLevelHeadingTexts, List.filterMap_cons] using hm s hs
    case callout title text =>
      obtain ⟨c2, rest, he, ht, hm⟩ :=
        ih done ⟨c.title, c.blocks ++ [.callout title text]⟩
      refine ⟨c2, rest, by simp [sectionsGo, he], ht, ?_⟩
      intro s hs
      simpa [topLevelHeadingTexts, List.filterMap_cons] using hm s hs
    case table headers rows =>
      obtain ⟨c2, rest, he, ht, hm⟩ :=
        ih done ⟨c.title, c.blocks ++ [.table headers rows]⟩
      refine ⟨c2, rest, by simp [sectionsGo, he], ht, ?_⟩
      intro s hs
      simpa [topLevelHeadingTexts, List.filterMap_cons] using hm s hs
    case img src alt caption =>
      obtain ⟨c2, rest, he, ht, hm⟩ :=
        ih done ⟨c.title, c.blocks ++ [.img src alt caption]⟩
      refine ⟨c2, rest, by simp [sectionsGo, he], ht, ?_⟩
      intro s hs
      simpa [topLevelHeadingTexts, List.filterMap_cons] using hm s hs

/-- C9 counterexample: a top-level heading with empty text produces a
second section with an empty title, so the output of the sectionizer
can contain two empty-titled sections, the second of which is not the
first section. -/
theorem anonymous_section_counterexample :
    (sectionsOf [.p "x", .h ""]).map Sec.title = ["", ""] := by decide

/-- C9 amended: every section after the first is titled by the text of a
top-level heading of the input; hence when no top-level heading of the
input has empty text, at most one section (the leading anonymous one)
has an empty title, and it can only be the first section. -/
theorem sections_tail_titled (bs : List TopicBlock)
    (hne : ∀ t ∈ topLevelHeadingTexts bs, t ≠ "") :
    ∀ s ∈ (sectionsOf bs).tail,
      s.title ≠ "" ∧ s.title ∈ topLevelHeadingTexts bs := by
  intro s hs
  suffices hmem : s.title ∈ topLevelHeadingTexts bs from ⟨hne _ hmem, hmem⟩
  cases bs with
  | nil => simp [sectionsOf, sectionsGo] at hs
  | cons b bs =>
    cases b
    case h text =>
      by_cases hsub : headingIsSub text
      · obtain ⟨c2, rest, he, ht, hm⟩ :=
          sectionsGo_some_titles bs [] ⟨"", [.h text]⟩
        rw [topLevelHeadingTexts_cons_h, if_pos hsub]
        apply hm
        have hlist : sectionsOf (.h text :: bs) = c2 :: rest := by
          simp [sectionsOf, sectionsGo, hsub, he]
        rw [hlist] at hs
        simpa using hs
      · obtain ⟨c2, rest, he, ht, hm⟩ :=
          sectionsGo_some_titles bs [] ⟨text, []⟩
        rw [topLevelHeadingTexts_cons_h, if_neg hsub]
        have hlist : sectionsOf (.h text :: bs) = c2 :: rest := by
          simp [sectionsOf, sectionsGo, hsub, he]
        rw [hlist] at hs
        exact List.mem_cons_of_mem _ (hm s (by simpa using hs))
    case p text =>
      obtain ⟨c2, rest, he, ht, hm⟩ := sectionsGo_some_titles bs [] ⟨"", [.p text]⟩
      have hlist : sectionsOf (.p text :: bs) = c2 :: rest := by
        simp [sectionsOf, sectionsGo, he]
      rw [hlist] at hs
      rw [show topLevelHeadingTexts (.p text :: bs) = topLevelHeadingTexts bs by
        simp [topLevelHeadingTexts, List.filterMap_cons]]
      exact hm s (by simpa using hs)
    case ul items =>
      obtain ⟨c2, rest, he, ht, hm⟩ := sectionsGo_some_titles bs [] ⟨"", [.ul items]⟩
      have hlist : sectionsOf (.ul items :: bs) = c2 :: rest := by
        simp [sectionsOf, sectionsGo, he]
      rw [hlist] at hs
      rw [show topLevelHeadingTexts (.ul items :: bs) = topLevelHeadingTexts bs by
        simp [topLevelHeadingTexts, List.filterMap_cons]]
      exact hm s (by simpa using hs)
    case ol items =>
      obtain ⟨c2, rest, he, ht, hm⟩ := sectionsGo_some_titles bs [] ⟨"", [.ol items]⟩
      have hlist : sectionsOf (.ol items :: bs) = c2 :: rest := by
        simp [sectionsOf, sectionsGo, he]
      rw [hlist] at hs
      rw [show topLevelHeadingTexts (.ol items :: bs) = topLevelHeadingTexts bs by
        simp [topLevelHeadingTexts, List.filterMap_cons]]
      exact hm s (by simpa using hs)
    case code text =>
      obtain ⟨c2, rest, he, ht, hm⟩ := sectionsGo_some_titles bs [] ⟨"", [.code text]⟩
      have hlist : sectionsOf (.code text :: bs) = c2 :: rest := by
        simp [sectionsOf, sectionsGo, he]
      rw [hlist] at hs
      rw [show topLevelHeadingTexts (.code text :: bs) = topLevelHeadingTexts bs by
        simp [topLevelHeadingTexts, List.filterMap_cons]]
      exact hm s (by simpa using hs)
    case callout title text =>
      obtain ⟨c2, rest, he, ht, hm⟩ :=
        sectionsGo_some_titles bs [] ⟨"", [.callout title text]⟩
      have hlist : sectionsOf (.callout title text :: bs) = c2 :: rest := by
        simp [sectionsOf, sectionsGo, he]
      rw [hlist] at hs
      rw [show topLevelHeadingTexts (.callout title text :: bs) =
          topLevelHeadingTexts bs by
        simp [topLevelHeadingTexts, List.filterMap_cons]]
      exact hm s (by simpa using hs)
    case table headers rows =>
      obtain ⟨c2, rest, he, ht, hm⟩ :=
        sectionsGo_some_titles bs [] ⟨"", [.table headers rows]⟩
      have hlist : sectionsOf (.table headers rows :: bs) = c2 :: rest := by
        simp [sectionsOf, sectionsGo, he]
      rw [hlist] at hs
      rw [show topLevelHeadingTexts (.table headers rows :: bs) =
          topLevelHeadingTexts bs by
        simp [topLevelHeadingTexts, List.filterMap_cons]]
      exact hm s (by simpa using hs)
    case img src alt caption =>
      obtain ⟨c2, rest, he, ht, hm⟩ :=
        sectionsGo_some_titles bs [] ⟨"", [.img src alt caption]⟩
      have hlist : sectionsOf (.img src alt caption :: bs) = c2 :: rest := by
        simp [sectionsOf, sectionsGo, he]
      rw [hlist] at hs
      rw [show topLevelHeadingTexts (.img src alt caption :: bs) =
          topLevelHeadingTexts bs by
        simp [topLevelHeadingTexts, List.filterMap_cons]]
      exact hm s (by simpa using hs)

/-- C9 witness: the amended theorem applied to a concrete block list
whose second section is titled by the top-level heading "Otro". -/
theorem sections_tail_titled_witness :
    (Sec.mk "Otro" []).title ≠ "" ∧
    (Sec.mk "Otro" []).title ∈
      topLevelHeadingTexts [.h "Tema", .p "x", .h "Otro"] :=
  sections_tail_titled [.h "Tema", .p "x", .h "Otro"] (by decide)
    (Sec.mk "Otro" []) (by decide)

/-- C3 counterexample: headings whose trimmed text matches digits, one
dot, digits with nothing after — "4.2 Something" and "40.5" — are NOT
classified as sub-headings by the code; the sectionizer starts a new
titled section for them instead of appending them. -/
theorem subheading_single_dot_counterexample :
    isSubHeading "4.2 Something" = false ∧
    isSubHeading "40.5" = false ∧
    sectionsOf [.h "4.2 Something"] = [⟨"4.2 Something", []⟩] := by
  refine ⟨by decide, by decide, by decide⟩

/-- C5 counterexample: "Ejercicio1" contains no whitespace at all, yet
the code classifies it as an exercise heading, because the code only
trims the remainder after "ejercicio" and does not require any
whitespace before the digit. -/
theorem exercise_no_space_counterexample :
    isExerciseHeading "Ejercicio1" = true ∧
    "Ejercicio1".data.any isJsSpace = false := by
  refine ⟨by decide, by decide⟩

/-- Dropping trailing whitespace commutes with a non-whitespace head. -/
theorem dropTrailingWs_cons_of_not (c : Char) (m : List Char)
    (hc : isJsSpace c = false) :
    dropTrailingWs (c :: m) = c :: dropTrailingWs m := by
  unfold dropTrailingWs
  rw [List.reverse_cons, List.dropWhile_append]
  split
  case isTrue h =>
    have hm : (m.reverse.dropWhile isJsSpace) = [] := by
      simpa [List.isEmpty_iff] using h
    simp [List.dropWhile, hc, hm]
  case isFalse h =>
    simp [List.reverse_append]

/-- The head of a dropWhile result falsifies the predicate. -/
theorem dropWhile_head_false (p : Char → Bool) :
    ∀ (l : List Char) c m, l.dropWhile p = c :: m → p c = false := by
  intro l
  induction l with
  | nil => intro c m h; simp [List.dropWhile] at h
  | cons x xs ih =>
    intro c m h
    rw [List.dropWhile_cons] at h
    split at h
    · exact ih c m h
    · cases h
      simp_all

/-- A list trims to nothing exactly when all its characters are JS
whitespace. -/
theorem jsTrim_eq_nil_iff (l : List Char) :
    jsTrim l = [] ↔ l.all isJsSpace = true := by
  unfold jsTrim dropTrailingWs
  rw [List.reverse_eq_nil_iff, List.dropWhile_eq_nil_iff]
  simp only [List.mem_reverse]
  constructor
  · intro hAll
    rw [List.all_eq_true]
    intro x hx
    rw [← List.takeWhile_append_dropWhile (p := isJsSpace) (l := l)] at hx
    rcases List.mem_append.mp hx with h | h
    · exact List.mem_takeWhile_imp h
    · exact hAll x h
  · intro hAll x hx
    have hxl : x ∈ l := by
      rw [← List.takeWhile_append_dropWhile (p := isJsSpace) (l := l)]
      exact List.mem_append_right _ hx
    exact List.all_eq_true.mp hAll x hxl

/-- The trimmed list is empty or starts with the first non-whitespace
character of the input. -/
theorem jsTrim_cases (l : List Char) :
    (l.dropWhile isJsSpace = [] ∧ jsTrim l = []) ∨
    (∃ c m, l.dropWhile isJsSpace = c :: m ∧ jsTrim l = c :: dropTrailingWs m) := by
  cases hd : l.dropWhile isJsSpace with
  | nil => exact Or.inl ⟨rfl, by simp [jsTrim, hd, dropTrailingWs]⟩
  | cons c m =>
    refine Or.inr ⟨c, m, rfl, ?_⟩
    rw [jsTrim, hd]
    exact dropTrailingWs_cons_of_not c m (dropWhile_head_false _ l c m hd)

/-- Characterization of the first-dot search: it returns index i exactly
when the list splits as a dot-free prefix of length i, the dot, and a
remainder. -/
theorem idxOfDot_eq_some :
    ∀ (l : List Char) (i : Nat),
    idxOfDot l = some i ↔
      ∃ a r, l = a ++ '.' :: r ∧ a.length = i ∧ '.' ∉ a := by
  intro l
  induction l with
  | nil =>
    intro i
    constructor
    · intro h; simp [idxOfDot] at h
    · rintro ⟨a, r, h, -, -⟩
      exact absurd h.symm (by simp)
  | cons c cs ih =>
    intro i
    rw [idxOfDot]
    by_cases hc : c = '.'
    · subst hc
      rw [if_pos rfl]
      constructor
      · intro h
        refine ⟨[], cs, rfl, ?_, by simp⟩
        simpa using (Option.some_inj.mp h)
      · rintro ⟨a, r, heq, hlen, hnot⟩
        cases a with
        | nil => simp_all
        | cons x a2 =>
          have hx : x = '.' := by
            have := congrArg (fun l => l.head?) heq
            simpa using this.symm
          exact absurd (hx ▸ List.mem_cons_self x a2) hnot
    · rw [if_neg hc]
      constructor
      · intro h
        obtain ⟨j, hj, hji⟩ := Option.map_eq_some'.mp h
        obtain ⟨a, r, heq, hlen, hnot⟩ := (ih j).mp hj
        refine ⟨c :: a, r, by rw [heq, List.cons_append], by simp [hlen, hji], ?_⟩
        intro hmem
        rcases List.mem_cons.mp hmem with h1 | h1
        · exact hc h1.symm
        · exact hnot h1
      · rintro ⟨a, r, heq, hlen, hnot⟩
        cases a with
        | nil =>
          exfalso
          apply hc
          have := congrArg (fun l => l.head?) heq
          simpa using this
        | cons x a2 =>
          have hx : x = c := by
            have := congrArg (fun l => l.head?) heq
            simpa using this.symm
          have hcs : cs = a2 ++ '.' :: r := by
            have := congrArg List.tail heq
            simpa using this
          have hrec : idxOfDot cs = some a2.length :=
            (ih a2.length).mpr
              ⟨a2, r, hcs, rfl, fun hm => hnot (List.mem_cons_of_mem x hm)⟩
          rw [hrec]
          simpa using hlen

/-- A run of ASCII digits contains no dot. -/
theorem all_digit_no_dot (a : List Char) (h : a.all isDigitChar = true) :
    '.' ∉ a := by
  intro hm
  have := List.all_eq_true.mp h '.' hm
  simp [isDigitChar] at this

/-- C3 amended: the code requires a SECOND dot.  A heading is classified
as a sub-heading exactly when its trimmed text splits as a non-empty
ASCII-digit run, a dot, a second non-empty ASCII-digit run, a dot, and
an arbitrary remainder; consequently "4.2. Algo" is a sub-heading while
"4.2 Something" and "40.5" (one dot only) start new titled sections. -/
theorem isSubHeading_amended :
    (∀ t : String, isSubHeading t = true ↔
      ∃ a b r, jsTrim t.data = a ++ '.' :: (b ++ '.' :: r) ∧
        a ≠ [] ∧ b ≠ [] ∧ a.all isDigitChar = true ∧ b.all isDigitChar = true) ∧
    isSubHeading "4.2. El color del texto" = true ∧
    isSubHeading "40.5." = true ∧
    sectionsOf [.h "Intro", .h "4.2. Algo"] = [⟨"Intro", [.h "4.2. Algo"]⟩] := by
  refine ⟨?_, by decide, by decide, by decide⟩
  intro t
  constructor
  · intro h
    simp only [isSubHeading] at h
    cases hd1 : idxOfDot (jsTrim t.data) with
    | none => simp [hd1] at h
    | some d1 =>
      simp only [hd1] at h
      by_cases h0 : d1 = 0
      · simp [h0] at h
      · rw [if_neg h0] at h
        cases hd2 : idxOfDot ((jsTrim t.data).drop (d1 + 1)) with
        | none => simp [hd2] at h
        | some k =>
          simp only [hd2] at h
          by_cases hk : k = 0
          · simp [hk] at h
          · rw [if_neg hk] at h
            by_cases hab : (jsTrim t.data).take d1 = [] ∨
                ((jsTrim t.data).drop (d1 + 1)).take k = []
            · rw [if_pos hab] at h; simp at h
            · rw [if_neg hab] at h
              obtain ⟨a0, r0, hs0, hl0, hn0⟩ := (idxOfDot_eq_some _ _).mp hd1
              have htake : (jsTrim t.data).take d1 = a0 := by
                rw [hs0, ← hl0, List.take_left]
              have hdrop : (jsTrim t.data).drop (d1 + 1) = r0 := by
                rw [hs0, ← hl0,
                  show a0 ++ '.' :: r0 = (a0 ++ ['.']) ++ r0 by simp,
                  show a0.length + 1 = (a0 ++ ['.']).length by simp]
                exact List.drop_left _ _
              rw [hdrop] at hd2
              obtain ⟨b0, r1, hs1, hl1, hn1⟩ := (idxOfDot_eq_some _ _).mp hd2
              have htake2 : ((jsTrim t.data).drop (d1 + 1)).take k = b0 := by
                rw [hdrop, hs1, ← hl1, List.take_left]
              rw [htake, htake2, Bool.and_eq_true] at h
              refine ⟨a0, b0, r1, by rw [hs0, hs1], ?_, ?_, h.1, h.2⟩
              · intro h2
                exact hab (Or.inl (by rw [htake, h2]))
              · intro h2
                exact hab (Or.inr (by rw [htake2, h2]))
  · rintro ⟨a, b, r, heq, ha, hb, hda, hdb⟩
    have hna : '.' ∉ a := all_digit_no_dot a hda
    have hnb : '.' ∉ b := all_digit_no_dot b hdb
    have hd1 : idxOfDot (jsTrim t.data) = some a.length :=
      (idxOfDot_eq_some _ _).mpr ⟨a, b ++ '.' :: r, heq, rfl, hna⟩
    have hdrop : (jsTrim t.data).drop (a.length + 1) = b ++ '.' :: r := by
      rw [heq,
        show a ++ '.' :: (b ++ '.' :: r) = (a ++ ['.']) ++ (b ++ '.' :: r) by simp,
        show a.length + 1 = (a ++ ['.']).length by simp]
      exact List.drop_left _ _
    have hd2 : idxOfDot ((jsTrim t.data).drop (a.length + 1)) = some b.length := by
      rw [hdrop]
      exact (idxOfDot_eq_some _ _).mpr ⟨b, r, rfl, rfl, hnb⟩
    have htake : (jsTrim t.data).take a.length = a := by
      rw [heq, List.take_left]
    have htake2 : ((jsTrim t.data).drop (a.length + 1)).take b.length = b := by
      rw [hdrop, List.take_left]
    simp only [isSubHeading, hd1, hd2, htake, htake2]
    rw [if_neg (fun h0 => ha (List.length_eq_zero.mp h0)),
      if_neg (fun h0 => hb (List.length_eq_zero.mp h0)),
      if_neg (fun hor => hor.elim ha hb), Bool.and_eq_true]
    exact ⟨hda, hdb⟩

/-- C5 amended: the exercise rule fires exactly when the trimmed,
lowercased text begins with "ejercicio" and the remainder, after
skipping any (possibly zero) whitespace, starts with an ASCII digit —
no whitespace is required between "ejercicio" and the digit.  In
particular "Ejercicio 1 ..." is a sub-heading and "Ejercicios" starts a
new titled section. -/
theorem isExerciseHeading_amended :
    (∀ t : String, isExerciseHeading t = true ↔
      ∃ rest d rest2,
        (jsTrim t.data).map jsToLower = "ejercicio".data ++ rest ∧
        rest.dropWhile isJsSpace = d :: rest2 ∧ isDigitChar d = true) ∧
    isExerciseHeading "Ejercicio 1 · Tu primer script" = true ∧
    isExerciseHeading "Ejercicios" = false ∧
    sectionsOf [.h "Ejercicios"] = [⟨"Ejercicios", []⟩] := by
  refine ⟨?_, by decide, by decide, by decide⟩
  intro t
  constructor
  · intro h
    simp only [isExerciseHeading] at h
    by_cases hp : "ejercicio".data.isPrefixOf ((jsTrim t.data).map jsToLower) = true
    · rw [if_pos hp] at h
      obtain ⟨rest, hrest⟩ :
          ∃ rest, (jsTrim t.data).map jsToLower = "ejercicio".data ++ rest := by
        obtain ⟨rest, hr⟩ := List.isPrefixOf_iff_prefix.mp hp
        exact ⟨rest, hr.symm⟩
      have hdrop9 : ((jsTrim t.data).map jsToLower).drop 9 = rest := by
        rw [hrest, show (9 : Nat) = "ejercicio".data.length by decide]
        exact List.drop_left _ _
      rw [hdrop9] at h
      rcases jsTrim_cases rest with ⟨hdw, htr⟩ | ⟨c, m, hdw, htr⟩
      · rw [htr] at h; simp at h
      · rw [htr] at h
        exact ⟨rest, c, m, hrest, hdw, h⟩
    · rw [if_neg hp] at h
      simp at h
  · rintro ⟨rest, d, rest2, hrest, hd, hdig⟩
    have hp : "ejercicio".data.isPrefixOf ((jsTrim t.data).map jsToLower) = true :=
      List.isPrefixOf_iff_prefix.mpr ⟨rest, hrest.symm⟩
    simp only [isExerciseHeading]
    rw [if_pos hp]
    have hdrop9 : ((jsTrim t.data).map jsToLower).drop 9 = rest := by
      rw [hrest, show (9 : Nat) = "ejercicio".data.length by decide]
      exact List.drop_left _ _
    rw [hdrop9]
    rcases jsTrim_cases rest with ⟨hdw, htr⟩ | ⟨c, m, hdw, htr⟩
    · rw [hdw] at hd
      exact absurd hd (by simp)
    · rw [htr]
      rw [hdw] at hd
      cases hd
      exact hdig

/-- C8 counterexample: the spacing variant "rojo   oscuro" does NOT
resolve to the identifier of "rojo oscuro"; normalization keeps internal
whitespace and the exact match falls through to the default. -/
theorem color_spacing_counterexample :
    ColorName "rojo   oscuro" ≠ ColorName "rojo oscuro" ∧
    ColorName "rojo   oscuro" = "text-slate-900" ∧
    ColorName "rojo oscuro" = "text-red-800" := by
  refine ⟨?_, by decide, by decide⟩
  decide

/-- C8 amended: the case variant "Rojo Oscuro" resolves to the same
display-color identifier as "rojo oscuro" (normalization lowercases),
but the spacing variant "rojo   oscuro" does not: normalization
preserves internal whitespace unchanged, so the exact match against the
color enumeration fails and the default identifier is returned. -/
theorem color_normalization_amended :
    ColorName "Rojo Oscuro" = ColorName "rojo oscuro" ∧
    ColorName "Rojo Oscuro" = "text-red-800" ∧
    normalize "rojo   oscuro" = "rojo   oscuro" ∧
    ColorName "rojo   oscuro" = "text-slate-900" := by
  refine ⟨by decide, by decide, by decide, by decide⟩

/-- C10: every input whose normalized form is none of the seven
enumerated color names resolves to the default identifier
text-slate-900, which is exactly the identifier of "negro"; an
unmatched first cell is therefore rendered like black. -/
theorem colorName_default_collision :
    (∀ s : String,
      normalize s ∉ ["negro", "naranja", "azul", "morado", "rojo oscuro",
        "rojo claro", "verde"] →
      ColorName s = "text-slate-900") ∧
    ColorName "negro" = "text-slate-900" := by
  constructor
  · intro s h
    simp only [List.mem_cons, List.not_mem_nil, or_false, not_or] at h
    obtain ⟨h1, h2, h3, h4, h5, h6, h7⟩ := h
    simp [ColorName, h1, h2, h3, h4, h5, h6, h7]
  · decide

/-- C10 witness: the theorem applied at the concrete input "fucsia". -/
theorem colorName_default_collision_witness :
    ColorName "fucsia" = "text-slate-900" :=
  colorName_default_collision.1 "fucsia" (by decide)

/-- A successful quoted-string match consumes exactly a prefix of the
input: the matched body followed by the remainder is the input. -/
theorem quotedRun_append (q : Char) :
    ∀ (cs : List Char) r, quotedRun q cs = some r → r.1 ++ r.2 = cs := by
  intro cs
  induction cs using quotedRun.induct q
  all_goals intro r h
  all_goals rw [quotedRun.eq_def] at h
  all_goals simp_all
  all_goals (subst h; simp_all)

/-- Every step of the retokenization loop produces a non-empty lexeme
starting at the current position, and the remainder is exactly the rest
of the input: the alternatives tile the code part with no gap and no
overlap. -/
theorem nextLexeme_eq (prev : Option Char) (c : Char) (cs : List Char) :
    ∃ tl rest, nextLexeme prev c cs = (c :: tl, rest) ∧ tl ++ rest = cs := by
  unfold nextLexeme
  by_cases h1 : c = '"'
  · rw [if_pos h1]
    cases hqr : quotedRun '"' cs with
    | some r => exact ⟨r.1, r.2, rfl, quotedRun_append _ _ _ hqr⟩
    | none => exact ⟨[], cs, rfl, rfl⟩
  · rw [if_neg h1]
    by_cases h2 : c = squote
    · rw [if_pos h2]
      cases hqr : quotedRun squote cs with
      | some r => exact ⟨r.1, r.2, rfl, quotedRun_append _ _ _ hqr⟩
      | none => exact ⟨[], cs, rfl, rfl⟩
    · rw [if_neg h2]
      by_cases h3 : isIdentStart c = true
      · rw [if_pos h3]
        by_cases h4 : prevIsWord prev = true
        · rw [if_pos h4]; exact ⟨[], cs, rfl, rfl⟩
        · rw [if_neg h4]
          exact ⟨_, _, rfl, List.takeWhile_append_dropWhile _ _⟩
      · rw [if_neg h3]
        by_cases h5 : isDigitChar c = true
        · rw [if_pos h5]
          by_cases h6 : prevIsWord prev = true
          · rw [if_pos h6]; exact ⟨[], cs, rfl, rfl⟩
          · rw [if_neg h6]
            split
            next r2 hdw =>
              split_ifs with hd hw
              · exact ⟨_, _, rfl, List.takeWhile_append_dropWhile _ _⟩
              · refine ⟨_, _, rfl, ?_⟩
                rw [List.append_assoc]
                simp only [List.cons_append]
                rw [List.takeWhile_append_dropWhile, ← hdw,
                  List.takeWhile_append_dropWhile]
              · exact ⟨_, _, rfl, List.takeWhile_append_dropWhile _ _⟩
            next rest1 hne =>
              split_ifs with hw
              · exact ⟨[], cs, rfl, rfl⟩
              · exact ⟨_, _, rfl, List.takeWhile_append_dropWhile _ _⟩
        · rw [if_neg h5]
          by_cases h7 : isJsSpace c = true
          · rw [if_pos h7]
            exact ⟨_, _, rfl, List.takeWhile_append_dropWhile _ _⟩
          · rw [if_neg h7]; exact ⟨[], cs, rfl, rfl⟩
/-- With sufficient fuel, concatenating all lexemes of the
retokenization loop reproduces the input exactly. -/
theorem lexLoopF_flatten :
    ∀ (fuel : Nat) (prev : Option Char) (l : List Char), l.length ≤ fuel →
      (lexLoopF fuel prev l).flatten = l := by
  intro fuel
  induction fuel with
  | zero =>
    intro prev l h
    have hl : l = [] := List.length_eq_zero.mp (Nat.le_zero.mp h)
    subst hl
    simp [lexLoopF]
  | succ n ih =>
    intro prev l h
    cases l with
    | nil => simp [lexLoopF]
    | cons c cs =>
      obtain ⟨tl, rest, he, ha⟩ := nextLexeme_eq prev c cs
      simp only [lexLoopF, he]
      rw [List.flatten_cons]
      have hlen : rest.length ≤ n := by
        have h1 := congrArg List.length ha
        simp only [List.length_append] at h1
        simp only [List.length_cons] at h
        omega
      rw [ih _ _ hlen]
      simp [ha]

/-- Classification never alters the lexeme text: an empty lexeme yields
no token, and any other lexeme yields a token carrying the lexeme
itself. -/
theorem classify_cases (t : List Char) :
    (t = [] ∧ classify t = none) ∨ ∃ k, classify t = some ⟨t, k⟩ := by
  unfold classify
  split_ifs with h0 h1 h2 h3 h4 h5
  · exact Or.inl ⟨h0, rfl⟩
  all_goals exact Or.inr ⟨_, rfl⟩

/-- Concatenating the texts of the classified tokens reproduces the
concatenation of the lexemes. -/
theorem flatten_filterMap_classify (ls : List (List Char)) :
    ((ls.filterMap classify).map Token.text).flatten = ls.flatten := by
  induction ls with
  | nil => rfl
  | cons t ls ih =>
    rcases classify_cases t with ⟨h0, hc⟩ | ⟨k, hc⟩
    · simp [List.filterMap_cons, hc, ih]
      exact h0
    · simp [List.filterMap_cons, hc, ih]

/-- The comment boundary scan only splits the line: code part followed
by comment part is the whole line. -/
theorem commentSplit_append :
    ∀ (l : List Char) (inS inD esc : Bool),
      (commentSplit inS inD esc l).1 ++ (commentSplit inS inD esc l).2 = l := by
  intro l
  induction l with
  | nil => intro inS inD esc; simp [commentSplit]
  | cons c cs ih =>
    intro inS inD esc
    unfold commentSplit
    split_ifs with h1 h2 h3 h4 h5 <;> simp [ih]

/-- C2: tokenizer losslessness and totality.  For every input line with
no line-break character, tokenizePythonLine (a total function, so it
never throws) produces an ordered, gap-free, non-overlapping token
sequence whose concatenated text equals the input line exactly, on all
inputs including malformed code. -/
theorem tokenizePythonLine_lossless (line : String)
    (_h : ∀ c ∈ line.data, isLineTerminator c = false) :
    ((tokenizePythonLine line).map Token.text).flatten = line.data := by
  simp only [tokenizePythonLine]
  simp only [List.map_append, List.flatten_append]
  rw [flatten_filterMap_classify, lexLoopF_flatten _ _ _ (le_refl _)]
  have hsplit := commentSplit_append line.data false false false
  by_cases hc : (commentSplit false false false line.data).2 = []
  · rw [if_pos hc]
    simp only [List.map_nil, List.flatten_nil, List.append_nil]
    rw [hc] at hsplit
    simpa using hsplit
  · rw [if_neg hc]
    simpa using hsplit

/-- C2 witness: the losslessness theorem applied to the concrete line
"print(2 + 3)". -/
theorem tokenizePythonLine_lossless_witness :
    ((tokenizePythonLine "print(2 + 3)").map Token.text).flatten =
      "print(2 + 3)".data :=
  tokenizePythonLine_lossless "print(2 + 3)" (by decide)

/-- C4 counterexample: on the line consisting of a quote followed by
abc, the unterminated quote does NOT consume the rest of the line as one
string token; the tokenizer produces a one-character string-literal
token for the quote and a separate plain token "abc". -/
theorem unterminated_string_counterexample :
    tokenizePythonLine "\"abc" ≠ [⟨"\"abc".data, .stringLit⟩] ∧
    tokenizePythonLine "\"abc" =
      [⟨['"'], .stringLit⟩, ⟨['a', 'b', 'c'], .plain⟩] := by
  refine ⟨by decide, by decide⟩

/-- C4 amended: when no unescaped closing quote is reachable (the
quoted-string alternative fails), the opening quote falls back to a
single-character token which is classified string-literal, and the rest
of the line is tokenized by the normal rules; the tokenizer never
fails. -/
theorem unterminated_quote_amended (prev : Option Char) (cs : List Char)
    (hq : quotedRun '"' cs = none) :
    nextLexeme prev '"' cs = (['"'], cs) ∧
    (∀ fuel, lexLoopF (fuel + 1) prev ('"' :: cs) =
      ['"'] :: lexLoopF fuel (some '"') cs) ∧
    classify ['"'] = some ⟨['"'], TokenKind.stringLit⟩ := by
  have h1 : nextLexeme prev '"' cs = (['"'], cs) := by
    unfold nextLexeme
    rw [if_pos rfl, hq]
  refine ⟨h1, ?_, by decide⟩
  intro fuel
  simp only [lexLoopF, h1]
  rfl

/-- C4 witness: the amended theorem applied to the concrete code part
consisting of a quote followed by abc. -/
theorem unterminated_quote_amended_witness :
    nextLexeme none '"' "abc".data = (['"'], "abc".data) ∧
    lexLoopF 4 none ('"' :: "abc".data) =
      ['"'] :: lexLoopF 3 (some '"') "abc".data :=
  ⟨(unterminated_quote_amended none "abc".data (by decide)).1,
   (unterminated_quote_amended none "abc".data (by decide)).2.1 3⟩

/-- C6: lexeme classification priority.  Every non-empty lexeme is
classified by the first applicable rule in the order whitespace run,
starts with a quote, starts with a digit, exact keyword, exact builtin,
plain (specKind states this order exactly as the spec words it); and
tokenizing print("Hola, Python") yields builtin print, plain open
parenthesis, the string literal, plain close parenthesis, in order. -/
theorem classify_priority :
    (∀ t : List Char, t ≠ [] → classify t = some ⟨t, specKind t⟩) ∧
    tokenizePythonLine "print(\"Hola, Python\")" =
      [⟨"print".data, .builtin⟩, ⟨"(".data, .plain⟩,
       ⟨"\"Hola, Python\"".data, .stringLit⟩, ⟨")".data, .plain⟩] := by
  constructor
  · intro t ht
    unfold classify specKind
    rw [if_neg ht]
    by_cases h1 : t.all isJsSpace = true
    · rw [if_pos ((jsTrim_eq_nil_iff t).mpr h1), if_pos h1]
    · rw [if_neg (fun hh => h1 ((jsTrim_eq_nil_iff t).mp hh)), if_neg h1]
      split_ifs <;> rfl
  · decide

/-- C6 witness: the classification theorem applied to the concrete
lexeme print. -/
theorem classify_priority_witness :
    classify "print".data = some ⟨"print".data, specKind "print".data⟩ :=
  classify_priority.1 "print".data (by decide)
/-- Rebuilding from chunks distributes over an appended prefix of the
first chunk. -/
theorem unchunk_append (p q : List Char) (t : List (List Char)) :
    unchunk (p ++ q) t = p ++ unchunk q t := by
  cases t <;> simp [unchunk]

/-- The chunk list of any string is non-empty. -/
theorem tickChunks_ne_nil : ∀ l : List Char, tickChunks l ≠ [] := by
  intro l
  cases l with
  | nil => simp [tickChunks]
  | cons c cs =>
    unfold tickChunks
    split_ifs
    · simp
    · split <;> simp

/-- Splitting on backticks and rebuilding reproduces the input. -/
theorem tickChunks_unchunk :
    ∀ (l : List Char) c0 rest, tickChunks l = c0 :: rest → unchunk c0 rest = l := by
  intro l
  induction l with
  | nil =>
    intro c0 rest h
    simp only [tickChunks] at h
    injection h with h1 h2
    subst h1
    subst h2
    rfl
  | cons c cs ih =>
    intro c0 rest h
    simp only [tickChunks] at h
    by_cases hc : c = backtick
    · rw [if_pos hc] at h
      cases hrec : tickChunks cs with
      | nil => exact absurd hrec (tickChunks_ne_nil cs)
      | cons c1 rest1 =>
        rw [hrec] at h
        injection h with h1 h2
        subst h1
        subst h2
        simp [unchunk, ih _ _ hrec, hc]
    · rw [if_neg hc] at h
      cases hrec : tickChunks cs with
      | nil => exact absurd hrec (tickChunks_ne_nil cs)
      | cons c1 rest1 =>
        rw [hrec] at h
        injection h with h1 h2
        subst h1
        subst h2
        rw [show c :: c1 = [c] ++ c1 from rfl, unchunk_append]
        simp [ih _ _ hrec]

/-- Re-inserting backticks around the code segments of the pairing pass
rebuilds the backtick-separated chunk sequence. -/
theorem tickGo_reconstruct :
    ∀ (plain : List Char) (chunks : List (List Char)),
      reconstructSegs false (tickGo plain chunks) = unchunk plain chunks := by
  intro plain chunks
  induction plain, chunks using tickGo.induct with
  | case1 plain => simp [tickGo, reconstructSegs, unchunk]
  | case2 plain c => simp [tickGo, reconstructSegs, unchunk]
  | case3 plain r rest ih =>
    simp only [tickGo, if_true]
    rw [ih]
    simp [unchunk, unchunk_append, List.append_assoc]
  | case4 plain c r rest hc ih =>
    simp only [tickGo, if_neg hc]
    simp [reconstructSegs, ih, unchunk, List.append_assoc]

/-- C7: inline renderer alternation and round-trip.  The segments
alternate plain and inline-code starting with plain (encoded by the
parity flag of reconstructSegs), re-inserting backticks around the code
segments reconstructs the original string for every input, an unmatched
trailing backtick never errors and leaves the dangling chunk as plain
content, and the concrete example splits as the spec says. -/
theorem richText_roundtrip :
    (∀ s : String, reconstructSegs false (richTextParts s) = s.data) ∧
    richTextParts "usa `IDLE` y guarda" =
      ["usa ".data, "IDLE".data, " y guarda".data] ∧
    richTextParts "usa `IDLE y guarda" = ["usa `IDLE y guarda".data] := by
  refine ⟨?_, by decide, by decide⟩
  intro s
  unfold richTextParts
  cases hch : tickChunks s.data with
  | nil => exact absurd hch (tickChunks_ne_nil _)
  | cons c0 rest =>
    rw [tickGo_reconstruct]
    exact tickChunks_unchunk _ _ _ hch

end App
